import Mathlib

/-!
Verification of the picture_manager media pipeline.

Python strings are modelled as lists of characters (`Str`); filesystem state
is passed explicitly; fallible Python code is modelled with `Option`/`Except`.
Each definition below is a shallow embedding of the correspondingly named
function of the repository.
-/

set_option maxHeartbeats 1000000

/-- A Python string, modelled as its list of characters (code points). -/
abbrev Str := List Char

/-- Boolean lexicographic comparison of strings by code point: the ordering
used by Python's `<` on `str`, which drives `sorted`. -/
def lexLe : Str → Str → Bool
  | [], _ => true
  | _ :: _, [] => false
  | a :: as, b :: bs => if a < b then true else if b < a then false else lexLe as bs

/-- The lexicographic order on strings as a proposition. -/
def strLe (a b : Str) : Prop := lexLe a b = true

instance : DecidableRel strLe := fun a b => instDecidableEqBool (lexLe a b) true

theorem lexLe_total (a b : Str) : lexLe a b = true ∨ lexLe b a = true := by
  induction a generalizing b with
  | nil => left; rfl
  | cons x xs ih =>
    cases b with
    | nil => right; rfl
    | cons y ys =>
      rcases lt_trichotomy x y with h | h | h
      · left; simp [lexLe, h]
      · subst h
        rcases ih ys with h' | h'
        · left; simp [lexLe, lt_irrefl, h']
        · right; simp [lexLe, lt_irrefl, h']
      · right; simp [lexLe, h]

theorem lexLe_antisymm {a b : Str} (h₁ : lexLe a b = true) (h₂ : lexLe b a = true) :
    a = b := by
  induction a generalizing b with
  | nil =>
    cases b with
    | nil => rfl
    | cons y ys => simp [lexLe] at h₂
  | cons x xs ih =>
    cases b with
    | nil => simp [lexLe] at h₁
    | cons y ys =>
      rcases lt_trichotomy x y with h | h | h
      · simp [lexLe, h, asymm h] at h₂
      · subst h
        simp only [lexLe, lt_irrefl, if_false] at h₁ h₂
        exact congrArg₂ (· :: ·) rfl (ih h₁ h₂)
      · simp [lexLe, h, asymm h] at h₁

theorem lexLe_trans {a b c : Str} (h₁ : lexLe a b = true) (h₂ : lexLe b c = true) :
    lexLe a c = true := by
  induction a generalizing b c with
  | nil => rfl
  | cons x xs ih =>
    cases b with
    | nil => simp [lexLe] at h₁
    | cons y ys =>
      cases c with
      | nil => simp [lexLe] at h₂
      | cons z zs =>
        rcases lt_trichotomy x y with hxy | hxy | hxy
        · rcases lt_trichotomy y z with hyz | hyz | hyz
          · simp [lexLe, lt_trans hxy hyz]
          · subst hyz; simp [lexLe, hxy]
          · simp [lexLe, hyz, asymm hyz] at h₂
        · subst hxy
          rcases lt_trichotomy x z with hyz | hyz | hyz
          · simp [lexLe, hyz]
          · subst hyz
            simp only [lexLe, lt_irrefl, if_false] at h₁ h₂ ⊢
            exact ih h₁ h₂
          · simp [lexLe, hyz, asymm hyz] at h₂
        · simp [lexLe, hxy, asymm hxy] at h₁

instance : IsTotal Str strLe := ⟨lexLe_total⟩

instance : IsTrans Str strLe := ⟨fun _ _ _ => lexLe_trans⟩

instance : IsAntisymm Str strLe := ⟨fun _ _ => lexLe_antisymm⟩

/-- Python's `sorted` on a list of strings: ascending lexicographic sort. -/
def sortStrs (l : List Str) : List Str := List.insertionSort strLe l

theorem sortStrs_perm (l : List Str) : (sortStrs l).Perm l :=
  List.perm_insertionSort strLe l

theorem sortStrs_sorted (l : List Str) : List.Sorted strLe (sortStrs l) :=
  List.sorted_insertionSort strLe l

/-- `sorted` is a canonical form: any two permuted inputs sort identically. -/
theorem sortStrs_eq_of_perm {l₁ l₂ : List Str} (h : l₁.Perm l₂) :
    sortStrs l₁ = sortStrs l₂ :=
  List.eq_of_perm_of_sorted
    ((sortStrs_perm l₁).trans (h.trans (sortStrs_perm l₂).symm))
    (sortStrs_sorted l₁) (sortStrs_sorted l₂)

theorem sortStrs_head_min {l : List Str} {k : Str} {rest : List Str}
    (h : sortStrs l = k :: rest) : ∀ p ∈ l, strLe k p := by
  intro p hp
  have hperm : (sortStrs l).Perm l := sortStrs_perm l
  have hmem : p ∈ sortStrs l := hperm.mem_iff.mpr hp
  rw [h] at hmem
  rcases List.mem_cons.mp hmem with hmem | hmem
  · subst hmem
    rcases lexLe_total p p with h' | h' <;> exact h'
  · have hs := sortStrs_sorted l
    rw [h] at hs
    exact (List.sorted_cons.mp hs).1 p hmem

/-! ### Decimal rendering: Python's `str(n)` is `Nat.repr n`; we prove it
injective via a digit-value round trip. -/

/-- Value of a big-endian list of decimal digit characters. -/
def digitsVal (ds : List Char) : Nat :=
  ds.foldl (fun a c => 10 * a + (c.toNat - 48)) 0

theorem digitsVal_append (ds : List Char) (c : Char) :
    digitsVal (ds ++ [c]) = 10 * digitsVal ds + (c.toNat - 48) := by
  simp [digitsVal, List.foldl_append]

theorem digitChar_toNat {d : Nat} (h : d < 10) : (Nat.digitChar d).toNat = 48 + d := by
  interval_cases d <;> rfl

theorem digitChar_isDigit {d : Nat} (h : d < 10) : (Nat.digitChar d).isDigit = true := by
  interval_cases d <;> rfl

theorem toDigitsCore_spec :
    ∀ (fuel n : Nat) (acc : List Char), 0 < fuel → n < 10 ^ fuel →
      ∃ ds, Nat.toDigitsCore 10 fuel n acc = ds ++ acc ∧ ds ≠ [] ∧
        (∀ c ∈ ds, c.isDigit = true) ∧ digitsVal ds = n := by
  intro fuel
  induction fuel with
  | zero => intro n acc h; omega
  | succ f ih =>
    intro n acc _ h
    have hmod : n % 10 < 10 := Nat.mod_lt _ (by omega)
    by_cases hdiv : n / 10 = 0
    · refine ⟨[Nat.digitChar (n % 10)], ?_, by simp, ?_, ?_⟩
      · simp [Nat.toDigitsCore, hdiv]
      · intro c hc
        simp at hc
        subst hc
        exact digitChar_isDigit hmod
      · have hn : n < 10 := by omega
        simp [digitsVal, digitChar_toNat hmod]
        omega
    · have hlt : n / 10 < 10 ^ f := by
        have : n < 10 ^ f * 10 := by
          calc n < 10 ^ (f + 1) := h
          _ = 10 ^ f * 10 := by ring
        omega
      have hfpos : 0 < f := by
        by_contra hf
        have hf0 : f = 0 := by omega
        subst hf0
        simp at h
        omega
      obtain ⟨ds, hds, hne, hdig, hval⟩ :=
        ih (n / 10) (Nat.digitChar (n % 10) :: acc) hfpos hlt
      refine ⟨ds ++ [Nat.digitChar (n % 10)], ?_, by simp, ?_, ?_⟩
      · simpa [Nat.toDigitsCore, hdiv] using hds
      · intro c hc
        rcases List.mem_append.mp hc with hc | hc
        · exact hdig c hc
        · simp at hc
          subst hc
          exact digitChar_isDigit hmod
      · rw [digitsVal_append, hval, digitChar_toNat hmod]
        omega

theorem repr_data_spec (n : Nat) :
    (Nat.repr n).data ≠ [] ∧ (∀ c ∈ (Nat.repr n).data, c.isDigit = true) ∧
      digitsVal (Nat.repr n).data = n := by
  have hlt : n < 10 ^ (n + 1) :=
    lt_of_lt_of_le (Nat.lt_pow_self (by omega) n)
      (Nat.pow_le_pow_right (by omega) (by omega))
  obtain ⟨ds, hds, hne, hdig, hval⟩ := toDigitsCore_spec (n + 1) n [] (by omega) hlt
  have : (Nat.repr n).data = ds := by
    show (Nat.toDigits 10 n).asString.data = ds
    rw [show Nat.toDigits 10 n = ds by simpa using hds]
    rfl
  rw [this]
  exact ⟨hne, hdig, hval⟩

theorem repr_data_injective {m n : Nat} (h : (Nat.repr m).data = (Nat.repr n).data) :
    m = n := by
  have hm := (repr_data_spec m).2.2
  have hn := (repr_data_spec n).2.2
  rw [h] at hm
  omega

/-! ### Conflict-safe naming (file_utils.py, utils.py, merge_all.py,
organize_photos.py).  All variants try the bare `base ++ ext` first and then
`base_1`, `base_2`, ... until the name is unused in the destination. -/

/-- The k-th candidate name tried by the conflict-resolution loops:
`f"{base}{ext}"` for k = 0, `f"{base}_{k}{ext}"` for k ≥ 1. -/
def candidateName (base ext : Str) : Nat → Str
  | 0 => base ++ ext
  | Nat.succ k => base ++ '_' :: ((Nat.repr (k + 1)).data ++ ext)

theorem repr_data_ne_nil (n : Nat) : (Nat.repr n).data ≠ [] := (repr_data_spec n).1

theorem candidateName_injective (base ext : Str) :
    Function.Injective (candidateName base ext) := by
  intro i j hij
  match i, j with
  | 0, 0 => rfl
  | 0, Nat.succ j =>
    exfalso
    have hlen := congrArg List.length hij
    simp [candidateName] at hlen
    omega
  | Nat.succ i, 0 =>
    exfalso
    have hlen := congrArg List.length hij
    simp [candidateName] at hlen
    omega
  | Nat.succ i, Nat.succ j =>
    simp only [candidateName] at hij
    have h1 : '_' :: ((Nat.repr (i + 1)).data ++ ext) =
        '_' :: ((Nat.repr (j + 1)).data ++ ext) := List.append_cancel_left hij
    have h2 : (Nat.repr (i + 1)).data ++ ext = (Nat.repr (j + 1)).data ++ ext :=
      List.tail_eq_of_cons_eq h1
    have h3 : (Nat.repr (i + 1)).data = (Nat.repr (j + 1)).data :=
      List.append_cancel_right h2
    have := repr_data_injective h3
    omega

/-- The candidate sequence always escapes any finite set of taken names. -/
theorem exists_free_candidate (existing : List Str) (base ext : Str) :
    ∃ k, candidateName base ext k ∉ existing := by
  by_contra hall
  push_neg at hall
  have himg : (Finset.image (candidateName base ext)
      (Finset.range (existing.length + 1))).card = existing.length + 1 := by
    rw [Finset.card_image_of_injOn
      (Function.Injective.injOn (candidateName_injective base ext))]
    simp
  have hsub : Finset.image (candidateName base ext)
      (Finset.range (existing.length + 1)) ⊆ existing.toFinset := by
    intro x hx
    rcases Finset.mem_image.mp hx with ⟨k, _, hk⟩
    rw [List.mem_toFinset, ← hk]
    exact hall k
  have := Finset.card_le_card hsub
  have := List.toFinset_card_le existing
  omega

/-- Number of iterations of the while-loop: the least k whose candidate name
is unused in the destination. -/
def resolveLevel (existing : List Str) (base ext : Str) : Nat :=
  Nat.find (exists_free_candidate existing base ext)

/-- The name produced by the conflict-resolution loop. -/
def resolveName (existing : List Str) (base ext : Str) : Str :=
  candidateName base ext (resolveLevel existing base ext)

theorem resolveName_not_mem (existing : List Str) (base ext : Str) :
    resolveName existing base ext ∉ existing :=
  Nat.find_spec (exists_free_candidate existing base ext)

theorem resolveLevel_min (existing : List Str) (base ext : Str) :
    ∀ j < resolveLevel existing base ext, candidateName base ext j ∈ existing := by
  intro j hj
  have := Nat.find_min (exists_free_candidate existing base ext) hj
  exact not_not.mp this

theorem resolveLevel_eq_zero_iff (existing : List Str) (base ext : Str) :
    resolveLevel existing base ext = 0 ↔ base ++ ext ∉ existing :=
  Nat.find_eq_zero (exists_free_candidate existing base ext)

/-- N successive calls against the same growing destination: after each call
the returned name is created in the destination directory. -/
def iterNames (existing : List Str) (base ext : Str) : Nat → List Str
  | 0 => []
  | Nat.succ n =>
    let prev := iterNames existing base ext n
    prev ++ [resolveName (prev ++ existing) base ext]

theorem iterNames_length (existing : List Str) (base ext : Str) (n : Nat) :
    (iterNames existing base ext n).length = n := by
  induction n with
  | zero => rfl
  | succ n ih => simp [iterNames, ih]

theorem iterNames_nodup (existing : List Str) (base ext : Str) (n : Nat) :
    (iterNames existing base ext n).Nodup := by
  induction n with
  | zero => exact List.nodup_nil
  | succ n ih =>
    have hnm := resolveName_not_mem (iterNames existing base ext n ++ existing) base ext
    simp only [iterNames]
    rw [List.nodup_append]
    refine ⟨ih, List.nodup_singleton _, ?_⟩
    intro a ha hb
    simp at hb
    subst hb
    exact hnm (List.mem_append.mpr (Or.inl ha))

/-! ### Capture time: `datetime` values, `strptime` with format
`%Y:%m:%d %H:%M:%S` and `strftime` with format `%Y%m%d_%H%M%S`. -/

structure DateTime where
  year : Nat
  month : Nat
  day : Nat
  hour : Nat
  minute : Nat
  second : Nat
deriving DecidableEq

/-- Gregorian leap-year rule used by `datetime`'s calendar validation. -/
def isLeap (y : Nat) : Bool := (y % 4 == 0 && y % 100 != 0) || y % 400 == 0

/-- Days of the month, as validated by the `datetime` constructor. -/
def daysInMonth (y m : Nat) : Nat :=
  if m = 2 then (if isLeap y then 29 else 28)
  else if m = 4 ∨ m = 6 ∨ m = 9 ∨ m = 11 then 30
  else 31

/-- Greedy numeric field of at most `maxLen` digits (the `\d{1,2}`-style
fields of CPython's strptime; every field is followed by a non-digit literal
or the end of the string, so greediness is faithful). -/
def parseField (maxLen : Nat) (l : Str) : Option (Nat × Str) :=
  let ds := (l.takeWhile Char.isDigit).take maxLen
  if ds.isEmpty then none else some (digitsVal ds, l.drop ds.length)

/-- A literal separator character of the format string. -/
def expectChar (c : Char) : Str → Option Str
  | [] => none
  | x :: xs => if x = c then some xs else none

/-- `datetime.strptime(s, "%Y:%m:%d %H:%M:%S")`, returning `none` where Python
raises `ValueError`: the year field is exactly four digits, the remaining
fields one or two, and the constructed value must be a valid datetime. -/
def parseDateTime (s : Str) : Option DateTime := do
  let ds := (s.takeWhile Char.isDigit).take 4
  if ds.length ≠ 4 then none else
  let y := digitsVal ds
  let r := s.drop 4
  let r ← expectChar ':' r
  let (mo, r) ← parseField 2 r
  let r ← expectChar ':' r
  let (d, r) ← parseField 2 r
  let r ← expectChar ' ' r
  let (h, r) ← parseField 2 r
  let r ← expectChar ':' r
  let (mi, r) ← parseField 2 r
  let r ← expectChar ':' r
  let (se, r) ← parseField 2 r
  if r = [] ∧ 1 ≤ y ∧ 1 ≤ mo ∧ mo ≤ 12 ∧ 1 ≤ d ∧ d ≤ daysInMonth y mo ∧
      h ≤ 23 ∧ mi ≤ 59 ∧ se ≤ 59 then
    some ⟨y, mo, d, h, mi, se⟩
  else none

/-- Zero padding to width `w`, as in strftime's numeric directives. -/
def padNum (w n : Nat) : Str :=
  List.replicate (w - (Nat.repr n).data.length) '0' ++ (Nat.repr n).data

/-- `dt.strftime('%Y%m%d')`. -/
def formatYmd (t : DateTime) : Str :=
  padNum 4 t.year ++ padNum 2 t.month ++ padNum 2 t.day

/-- `dt.strftime('%H%M%S')`. -/
def formatHms (t : DateTime) : Str :=
  padNum 2 t.hour ++ padNum 2 t.minute ++ padNum 2 t.second

/-- `dt.strftime('%Y%m%d_%H%M%S')`. -/
def formatYmdHms (t : DateTime) : Str := formatYmd t ++ '_' :: formatHms t

theorem padNum_length {w n : Nat} (h : n < 10 ^ w) (hw : 0 < w) :
    (padNum w n).length = w := by
  have hle : (Nat.repr n).data.length ≤ w := Nat.repr_length n w hw h
  have hdl : (Nat.repr n).data.length = (Nat.repr n).length := rfl
  simp [padNum]
  omega

theorem padNum_digits (w n : Nat) : ∀ c ∈ padNum w n, c.isDigit = true := by
  intro c hc
  rcases List.mem_append.mp hc with hc | hc
  · rw [List.eq_of_mem_replicate hc]; rfl
  · exact (repr_data_spec n).2.1 c hc

/-! ### duplicate_utils.py: `delete_duplicates` over an explicit filesystem.
The filesystem is the list of currently existing paths. -/

/-- One audit-log line of `delete_duplicates`, structured.  `failed` keeps the
failing path; the Python exception text appended to the line is abstracted. -/
inductive LogEntry where
  | simulated (filepath keeper : Str)
  | deleted (filepath keeper : Str)
  | failed (filepath : Str)
deriving DecidableEq

/-- The f-string text of an audit-log line. -/
def renderEntry : LogEntry → Str
  | LogEntry.simulated fp k => "[模拟] 将删除: ".data ++ fp ++ " (保留 ".data ++ k ++ ")".data
  | LogEntry.deleted fp k => "已删除: ".data ++ fp ++ " (保留 ".data ++ k ++ ")".data
  | LogEntry.failed fp => "删除失败 ".data ++ fp ++ ": ".data

/-- The path an audit-log line is about. -/
def entryPath : LogEntry → Str
  | LogEntry.simulated fp _ => fp
  | LogEntry.deleted fp _ => fp
  | LogEntry.failed fp => fp

/-- `os.remove`: succeeds exactly when the path exists. -/
def osRemove (fs : List Str) (p : Str) : Option (List Str) :=
  if p ∈ fs then some (fs.erase p) else none

/-- The inner loop body of `delete_duplicates` for one removal candidate. -/
def deleteStep (simulate : Bool) (acc : List LogEntry × List Str) (fp keeper : Str) :
    List LogEntry × List Str :=
  if simulate then (acc.1 ++ [LogEntry.simulated fp keeper], acc.2)
  else
    match osRemove acc.2 fp with
    | some fs' => (acc.1 ++ [LogEntry.deleted fp keeper], fs')
    | none => (acc.1 ++ [LogEntry.failed fp], acc.2)

/-- `duplicate_utils.delete_duplicates`: for each group, sort the paths,
keep the first, try to remove the rest, logging every decision.  Returns the
structured audit log and the final filesystem; the Python return value is
`(·.map renderEntry)` of the first component. -/
def delete_duplicates (duplicates : List (Str × List Str)) (simulate : Bool)
    (fs : List Str) : List LogEntry × List Str :=
  duplicates.foldl
    (fun acc group =>
      match sortStrs group.2 with
      | [] => acc
      | keeper :: rest =>
        rest.foldl (fun acc fp => deleteStep simulate acc fp keeper) acc)
    ([], fs)

/-- The removal decisions taken by `delete_duplicates`: every sorted member
but the lexicographically smallest, paired with its group's keeper. -/
def decisions (duplicates : List (Str × List Str)) : List (Str × Str) :=
  duplicates.flatMap (fun group =>
    match sortStrs group.2 with
    | [] => []
    | keeper :: rest => rest.map (fun fp => (fp, keeper)))

/-- The flat run of a decision list. -/
def runDecisions (ds : List (Str × Str)) (simulate : Bool)
    (acc : List LogEntry × List Str) : List LogEntry × List Str :=
  ds.foldl (fun acc d => deleteStep simulate acc d.1 d.2) acc

theorem runDecisions_append (a b : List (Str × Str)) (simulate : Bool)
    (acc : List LogEntry × List Str) :
    runDecisions (a ++ b) simulate acc = runDecisions b simulate (runDecisions a simulate acc) := by
  simp [runDecisions, List.foldl_append]

/-- `delete_duplicates` is the sequential execution of its decision list. -/
theorem delete_duplicates_eq_runDecisions (duplicates : List (Str × List Str))
    (simulate : Bool) (fs : List Str) :
    delete_duplicates duplicates simulate fs =
      runDecisions (decisions duplicates) simulate ([], fs) := by
  suffices h : ∀ (dups : List (Str × List Str)) (acc : List LogEntry × List Str),
      dups.foldl
        (fun acc group =>
          match sortStrs group.2 with
          | [] => acc
          | keeper :: rest =>
            rest.foldl (fun acc fp => deleteStep simulate acc fp keeper) acc)
        acc = runDecisions (decisions dups) simulate acc by
    exact h duplicates ([], fs)
  intro dups
  induction dups with
  | nil => intro acc; rfl
  | cons g tl ih =>
    intro acc
    rw [List.foldl_cons, ih]
    have hdec : decisions (g :: tl) =
        (match sortStrs g.2 with
          | [] => []
          | keeper :: rest => rest.map (fun fp => (fp, keeper))) ++ decisions tl := by
      simp [decisions]
    rw [hdec, runDecisions_append]
    congr 1
    cases hs : sortStrs g.2 with
    | nil => rfl
    | cons keeper rest =>
      simp [runDecisions, List.foldl_map]

/-- Simulation appends exactly one simulated line per decision and leaves the
filesystem untouched. -/
theorem runDecisions_simulate (ds : List (Str × Str)) (acc : List LogEntry × List Str) :
    runDecisions ds true acc =
      (acc.1 ++ ds.map (fun d => LogEntry.simulated d.1 d.2), acc.2) := by
  induction ds generalizing acc with
  | nil => simp [runDecisions]
  | cons d tl ih =>
    rw [runDecisions, List.foldl_cons, ← runDecisions, ih]
    simp [deleteStep]

/-- A real run in which every decision's path exists deletes exactly the
decided paths, logging one deleted line per decision. -/
theorem runDecisions_real (ds : List (Str × Str)) (log : List LogEntry) (fs : List Str)
    (hnd : (ds.map Prod.fst).Nodup) (hmem : ∀ d ∈ ds, d.1 ∈ fs) :
    runDecisions ds false (log, fs) =
      (log ++ ds.map (fun d => LogEntry.deleted d.1 d.2),
        ds.foldl (fun fs d => fs.erase d.1) fs) := by
  induction ds generalizing log fs with
  | nil => simp [runDecisions]
  | cons d tl ih =>
    rw [runDecisions, List.foldl_cons, ← runDecisions]
    have hd : d.1 ∈ fs := hmem d (by simp)
    rw [show deleteStep false (log, fs) d.1 d.2 =
        (log ++ [LogEntry.deleted d.1 d.2], fs.erase d.1) by
      simp [deleteStep, osRemove, hd]]
    rw [List.map_cons, List.nodup_cons] at hnd
    have htl : ∀ e ∈ tl, e.1 ∈ fs.erase d.1 := by
      intro e he
      refine List.mem_erase_of_ne ?_ |>.mpr (hmem e (by simp [he]))
      intro hcontra
      exact hnd.1 (hcontra ▸ List.mem_map_of_mem Prod.fst he)
    rw [ih (log ++ [LogEntry.deleted d.1 d.2]) (fs.erase d.1) hnd.2 htl]
    simp

/-- Paths never decided against survive a real run. -/
theorem runDecisions_preserves (ds : List (Str × Str)) (acc : List LogEntry × List Str)
    (p : Str) (hp : p ∉ ds.map Prod.fst) (hmem : p ∈ acc.2) :
    p ∈ (runDecisions ds false acc).2 := by
  induction ds generalizing acc with
  | nil => exact hmem
  | cons d tl ih =>
    rw [runDecisions, List.foldl_cons, ← runDecisions]
    rw [List.map_cons] at hp
    have hne : p ≠ d.1 := fun h => hp (by simp [h])
    have hp' : p ∉ tl.map Prod.fst := fun h => hp (by simp [h])
    refine ih _ hp' ?_
    simp only [deleteStep]
    cases hrem : osRemove acc.2 d.1 with
    | none => simpa using hmem
    | some fs' =>
      simp only [osRemove] at hrem
      by_cases hd : d.1 ∈ acc.2
      · simp [hd] at hrem
        subst hrem
        simpa using (List.mem_erase_of_ne hne).mpr hmem
      · simp [hd] at hrem

/-- Every line of any run is about the path of one of the decisions. -/
theorem runDecisions_entries (ds : List (Str × Str)) (simulate : Bool)
    (acc : List LogEntry × List Str) :
    ∀ e ∈ (runDecisions ds simulate acc).1,
      e ∈ acc.1 ∨ ∃ d ∈ ds, entryPath e = d.1 := by
  induction ds generalizing acc with
  | nil => intro e he; exact Or.inl he
  | cons d tl ih =>
    intro e he
    rw [runDecisions, List.foldl_cons, ← runDecisions] at he
    rcases ih _ e he with hin | ⟨d', hd', hp⟩
    · simp only [deleteStep] at hin
      by_cases hsim : simulate
      · simp [hsim] at hin
        rcases hin with hin | hin
        · exact Or.inl hin
        · exact Or.inr ⟨d, by simp, by simp [hin, entryPath]⟩
      · simp [hsim] at hin
        cases hrem : osRemove acc.2 d.1 with
        | some fs' =>
          rw [hrem] at hin
          simp at hin
          rcases hin with hin | hin
          · exact Or.inl hin
          · exact Or.inr ⟨d, by simp, by simp [hin, entryPath]⟩
        | none =>
          rw [hrem] at hin
          simp at hin
          rcases hin with hin | hin
          · exact Or.inl hin
          · exact Or.inr ⟨d, by simp, by simp [hin, entryPath]⟩
    · exact Or.inr ⟨d', by simp [hd'], hp⟩

theorem keeper_not_decided (duplicates : List (Str × List Str))
    (g : Str × List Str) (hg : g ∈ duplicates) (hnd : g.2.Nodup)
    (hdisj : duplicates.Pairwise (fun g₁ g₂ => g₁.2.Disjoint g₂.2))
    (keeper : Str) (rest : List Str) (hsort : sortStrs g.2 = keeper :: rest) :
    keeper ∉ (decisions duplicates).map Prod.fst := by
  intro hmem
  rcases List.mem_map.mp hmem with ⟨d, hd, hfst⟩
  rcases List.mem_flatMap.mp hd with ⟨g', hg', hmem'⟩
  have hkg : keeper ∈ g.2 := by
    have : keeper ∈ sortStrs g.2 := by rw [hsort]; exact List.mem_cons_self _ _
    exact (sortStrs_perm g.2).mem_iff.mp this
  cases hsort' : sortStrs g'.2 with
  | nil => rw [hsort'] at hmem'; simp at hmem'
  | cons k' r' =>
    rw [hsort'] at hmem'
    rcases List.mem_map.mp hmem' with ⟨fp, hfp, hpair⟩
    have hfpk : fp = keeper := by rw [← hpair] at hfst; exact hfst
    subst hfpk
    have hfpg' : fp ∈ g'.2 := by
      have : fp ∈ sortStrs g'.2 := by rw [hsort']; exact List.mem_cons_of_mem _ hfp
      exact (sortStrs_perm g'.2).mem_iff.mp this
    by_cases heq : g' = g
    · subst heq
      rw [hsort] at hsort'
      obtain ⟨hk, hrr⟩ := List.cons.inj hsort'
      have hndrest : (fp :: rest).Nodup := by
        have := ((sortStrs_perm g'.2).nodup_iff).mpr hnd
        rwa [hsort] at this
      rw [← hrr] at hfp
      exact (List.nodup_cons.mp hndrest).1 hfp
    · have hdis : g'.2.Disjoint g.2 :=
        hdisj.forall (fun _ _ h => h.symm) hg' hg heq
      exact hdis hfpg' hkg

/-- C1: within every duplicate group (member paths distinct, groups
disjoint), the paths are sorted lexicographically and the smallest is the
keeper: it is a lower bound of the group, it is never removed from the
filesystem, no audit-log line is about it, every other member is a removal
decision, and the keeper is invariant under re-ordering the group's paths, so
re-running the index build yields the same keeper. -/
theorem C1_lexicographic_keeper (duplicates : List (Str × List Str)) (fs : List Str)
    (g : Str × List Str) (hg : g ∈ duplicates) (hnd : g.2.Nodup)
    (hdisj : duplicates.Pairwise (fun g₁ g₂ => g₁.2.Disjoint g₂.2))
    (keeper : Str) (rest : List Str) (hsort : sortStrs g.2 = keeper :: rest) :
    (∀ p ∈ g.2, strLe keeper p) ∧
    (∀ p ∈ g.2, p ≠ keeper → (p, keeper) ∈ decisions duplicates) ∧
    (keeper ∈ fs → keeper ∈ (delete_duplicates duplicates false fs).2) ∧
    (∀ e ∈ (delete_duplicates duplicates false fs).1, entryPath e ≠ keeper) ∧
    (∀ files', files'.Perm g.2 → sortStrs files' = keeper :: rest) := by
  have hknd := keeper_not_decided duplicates g hg hnd hdisj keeper rest hsort
  refine ⟨sortStrs_head_min hsort, ?_, ?_, ?_, ?_⟩
  · intro p hp hne
    have hps : p ∈ sortStrs g.2 := (sortStrs_perm g.2).mem_iff.mpr hp
    rw [hsort] at hps
    have hprest : p ∈ rest := by
      rcases List.mem_cons.mp hps with h | h
      · exact absurd h hne
      · exact h
    refine List.mem_flatMap.mpr ⟨g, hg, ?_⟩
    rw [hsort]
    exact List.mem_map.mpr ⟨p, hprest, rfl⟩
  · intro hkfs
    rw [delete_duplicates_eq_runDecisions]
    exact runDecisions_preserves _ _ _ hknd hkfs
  · intro e he
    rw [delete_duplicates_eq_runDecisions] at he
    rcases runDecisions_entries _ false _ e he with h | ⟨d, hd, hp⟩
    · simp at h
    · intro hc
      rw [hc] at hp
      exact hknd (List.mem_map.mpr ⟨d, hd, hp.symm⟩)
  · intro files' hperm
    rw [← hsort]
    exact sortStrs_eq_of_perm hperm

theorem C1_lexicographic_keeper_witness :
    (∀ p ∈ ["b/x.txt".data, "a/x.txt".data], strLe "a/x.txt".data p) ∧
    (∀ p ∈ ["b/x.txt".data, "a/x.txt".data], p ≠ "a/x.txt".data →
      (p, "a/x.txt".data) ∈
        decisions [("d41d8cd9".data, ["b/x.txt".data, "a/x.txt".data])]) ∧
    ("a/x.txt".data ∈ ["a/x.txt".data, "b/x.txt".data] →
      "a/x.txt".data ∈ (delete_duplicates
        [("d41d8cd9".data, ["b/x.txt".data, "a/x.txt".data])] false
        ["a/x.txt".data, "b/x.txt".data]).2) ∧
    (∀ e ∈ (delete_duplicates
        [("d41d8cd9".data, ["b/x.txt".data, "a/x.txt".data])] false
        ["a/x.txt".data, "b/x.txt".data]).1, entryPath e ≠ "a/x.txt".data) ∧
    (∀ files', files'.Perm ["b/x.txt".data, "a/x.txt".data] →
      sortStrs files' = "a/x.txt".data :: ["b/x.txt".data]) :=
  C1_lexicographic_keeper
    [("d41d8cd9".data, ["b/x.txt".data, "a/x.txt".data])]
    ["a/x.txt".data, "b/x.txt".data]
    ("d41d8cd9".data, ["b/x.txt".data, "a/x.txt".data])
    (by decide) (by decide) (by simp) "a/x.txt".data ["b/x.txt".data] (by decide)

/-- C2 counterexample: on a single two-member group with both files present,
the audit log of a simulated run is textually different from the log of a
real run (`[模拟] 将删除: …` versus `已删除: …`), so the two modes do not
produce exactly the same audit log lines. -/
theorem C2_same_log_counterexample :
    ((delete_duplicates [("d41d8cd9".data, ["a/x.txt".data, "b/x.txt".data])] true
        ["a/x.txt".data, "b/x.txt".data]).1.map renderEntry) ≠
      ((delete_duplicates [("d41d8cd9".data, ["a/x.txt".data, "b/x.txt".data])] false
        ["a/x.txt".data, "b/x.txt".data]).1.map renderEntry) := by
  decide

/-- C2 (amended): a simulated run performs zero filesystem mutations and
takes exactly the same removal decisions as a real run: its log lines render
the decision list with the `[模拟] 将删除` wording, while a fully successful
real run renders the same decision list with the `已删除` wording — the logs
correspond line by line on the same (path, keeper) pairs but are not
textually identical. -/
theorem C2_simulate_refinement (duplicates : List (Str × List Str)) (fs : List Str)
    (hnd : ((decisions duplicates).map Prod.fst).Nodup)
    (hmem : ∀ d ∈ decisions duplicates, d.1 ∈ fs) :
    (delete_duplicates duplicates true fs).2 = fs ∧
    (delete_duplicates duplicates true fs).1 =
      (decisions duplicates).map (fun d => LogEntry.simulated d.1 d.2) ∧
    (delete_duplicates duplicates false fs).1 =
      (decisions duplicates).map (fun d => LogEntry.deleted d.1 d.2) := by
  rw [delete_duplicates_eq_runDecisions, delete_duplicates_eq_runDecisions,
    runDecisions_simulate, runDecisions_real _ _ _ hnd hmem]
  simp

theorem C2_simulate_refinement_witness :
    (delete_duplicates [("d41d8cd9".data, ["a/x.txt".data, "b/x.txt".data])] true
        ["a/x.txt".data, "b/x.txt".data]).2 = ["a/x.txt".data, "b/x.txt".data] ∧
    (delete_duplicates [("d41d8cd9".data, ["a/x.txt".data, "b/x.txt".data])] true
        ["a/x.txt".data, "b/x.txt".data]).1 =
      (decisions [("d41d8cd9".data, ["a/x.txt".data, "b/x.txt".data])]).map
        (fun d => LogEntry.simulated d.1 d.2) ∧
    (delete_duplicates [("d41d8cd9".data, ["a/x.txt".data, "b/x.txt".data])] false
        ["a/x.txt".data, "b/x.txt".data]).1 =
      (decisions [("d41d8cd9".data, ["a/x.txt".data, "b/x.txt".data])]).map
        (fun d => LogEntry.deleted d.1 d.2) :=
  C2_simulate_refinement
    [("d41d8cd9".data, ["a/x.txt".data, "b/x.txt".data])]
    ["a/x.txt".data, "b/x.txt".data] (by decide) (by decide)

/-! ### os.path.splitext on a bare filename: the extension starts at the last
dot, unless every character before it is a dot. -/

/-- Index of the last '.' of the name, if any. -/
def lastDotIdx (p : Str) : Option Nat :=
  match p.reverse.findIdx? (fun c => c == '.') with
  | none => none
  | some i => some (p.length - 1 - i)

/-- `os.path.splitext` for a name without directory separators. -/
def splitext (p : Str) : Str × Str :=
  match lastDotIdx p with
  | none => (p, [])
  | some s =>
    if (p.take s).any (fun c => c != '.') then (p.take s, p.drop s) else (p, [])

theorem splitext_append (p : Str) : (splitext p).1 ++ (splitext p).2 = p := by
  rw [splitext]
  cases lastDotIdx p with
  | none => simp
  | some s =>
    by_cases h : (p.take s).any (fun c => c != '.')
    · simp [h]
    · simp [h]

/-- C3: the conflict-safe namer first tries the bare `base ++ ext` and then
`base_1`, `base_2`, … (the numeric suffix goes before the extension),
stopping at the first name unused in the destination; the returned name never
coincides with an existing one, and n calls against the same growing
destination produce n pairwise distinct names. -/
theorem C3_conflict_safe_namer (existing : List Str) (base ext : Str) :
    candidateName base ext 0 = base ++ ext ∧
    (∀ k, candidateName base ext (k + 1) =
      base ++ '_' :: ((Nat.repr (k + 1)).data ++ ext)) ∧
    (∃ k, resolveName existing base ext = candidateName base ext k ∧
      candidateName base ext k ∉ existing ∧
      ∀ j < k, candidateName base ext j ∈ existing) ∧
    resolveName existing base ext ∉ existing ∧
    (∀ n, (iterNames existing base ext n).length = n ∧
      (iterNames existing base ext n).Nodup) := by
  refine ⟨rfl, fun k => rfl, ?_, resolveName_not_mem existing base ext, ?_⟩
  · exact ⟨resolveLevel existing base ext, rfl,
      resolveName_not_mem existing base ext, resolveLevel_min existing base ext⟩
  · exact fun n => ⟨iterNames_length existing base ext n,
      iterNames_nodup existing base ext n⟩

theorem C3_conflict_safe_namer_witness :
    candidateName "photo".data ".jpg".data 0 = "photo".data ++ ".jpg".data ∧
    (∀ k, candidateName "photo".data ".jpg".data (k + 1) =
      "photo".data ++ '_' :: ((Nat.repr (k + 1)).data ++ ".jpg".data)) ∧
    (∃ k, resolveName ["photo.jpg".data, "photo_1.jpg".data] "photo".data ".jpg".data =
        candidateName "photo".data ".jpg".data k ∧
      candidateName "photo".data ".jpg".data k ∉ ["photo.jpg".data, "photo_1.jpg".data] ∧
      ∀ j < k, candidateName "photo".data ".jpg".data j ∈
        ["photo.jpg".data, "photo_1.jpg".data]) ∧
    resolveName ["photo.jpg".data, "photo_1.jpg".data] "photo".data ".jpg".data ∉
      ["photo.jpg".data, "photo_1.jpg".data] ∧
    (∀ n, (iterNames ["photo.jpg".data, "photo_1.jpg".data] "photo".data ".jpg".data
        n).length = n ∧
      (iterNames ["photo.jpg".data, "photo_1.jpg".data] "photo".data ".jpg".data
        n).Nodup) :=
  C3_conflict_safe_namer ["photo.jpg".data, "photo_1.jpg".data] "photo".data ".jpg".data

/-! ### merge_all.py: copy_files_with_conflict_resolution.  The walk result
is a list of (source path, filename) pairs; the destination directory is the
list of names it already contains. -/

structure ConflictEntry where
  original_name : Str
  new_name : Str
  conflict_level : Nat
deriving DecidableEq

/-- `merge_all.copy_files_with_conflict_resolution`: skip `.DS_Store`,
resolve each name against the current destination, copy (the destination
grows), and record an entry exactly when the while-loop ran.  Returns the
final destination listing and the conflict report. -/
def copy_files_with_conflict_resolution :
    List (Str × Str) → List Str → List Str × List (Str × ConflictEntry)
  | [], dest => (dest, [])
  | f :: rest, dest =>
    if f.2 = ".DS_Store".data then copy_files_with_conflict_resolution rest dest
    else
      let se := splitext f.2
      let level := resolveLevel dest se.1 se.2
      let destName := candidateName se.1 se.2 level
      let r := copy_files_with_conflict_resolution rest (dest ++ [destName])
      (r.1, (if 0 < level then [(f.1, ⟨f.2, destName, level⟩)] else []) ++ r.2)

/-- The full trace of the same run: one record per copied file, including the
files whose bare name did not conflict. -/
structure CopyStep where
  src : Str
  original_name : Str
  new_name : Str
  conflict_level : Nat
deriving DecidableEq

def copySteps : List (Str × Str) → List Str → List CopyStep
  | [], _ => []
  | f :: rest, dest =>
    if f.2 = ".DS_Store".data then copySteps rest dest
    else
      let se := splitext f.2
      let level := resolveLevel dest se.1 se.2
      let destName := candidateName se.1 se.2 level
      ⟨f.1, f.2, destName, level⟩ :: copySteps rest (dest ++ [destName])

theorem copy_report_eq_filter (files : List (Str × Str)) (dest : List Str) :
    (copy_files_with_conflict_resolution files dest).2 =
      (copySteps files dest).filterMap
        (fun t => if 0 < t.conflict_level then
          some (t.src, ⟨t.original_name, t.new_name, t.conflict_level⟩) else none) := by
  induction files generalizing dest with
  | nil => rfl
  | cons f rest ih =>
    by_cases hds : f.2 = ".DS_Store".data
    · simp only [copy_files_with_conflict_resolution, copySteps, hds, if_pos,
        if_true]
      exact ih dest
    · simp only [copy_files_with_conflict_resolution, copySteps, hds, if_false,
        ite_false, List.filterMap_cons]
      by_cases hl : 0 < resolveLevel dest (splitext f.2).1 (splitext f.2).2
      · simp only [hl, if_pos, ite_true]
        rw [ih]
        simp
      · simp only [hl, if_neg, ite_false]
        rw [ih]
        simp [hl]

theorem copySteps_level_zero_iff (files : List (Str × Str)) (dest : List Str) :
    ∀ t ∈ copySteps files dest, (t.conflict_level = 0 ↔ t.new_name = t.original_name) := by
  induction files generalizing dest with
  | nil => intro t ht; simp [copySteps] at ht
  | cons f rest ih =>
    intro t ht
    by_cases hds : f.2 = ".DS_Store".data
    · rw [copySteps, if_pos hds] at ht
      exact ih dest t ht
    · rw [copySteps, if_neg hds] at ht
      rcases List.mem_cons.mp ht with h | h
      · subst h
        simp only
        constructor
        · intro h0
          rw [h0, candidateName, splitext_append]
        · intro hname
          by_contra h0
          have hk : ∃ k, resolveLevel dest (splitext f.2).1 (splitext f.2).2 = k + 1 :=
            ⟨_, (Nat.succ_pred_eq_of_pos (Nat.pos_of_ne_zero h0)).symm⟩
          rcases hk with ⟨k, hk⟩
          rw [hk] at hname
          have h00 : candidateName (splitext f.2).1 (splitext f.2).2 0 = f.2 := by
            rw [candidateName, splitext_append]
          exact Nat.succ_ne_zero k (candidateName_injective _ _ (hname.trans h00.symm))
      · exact ih _ t h

/-- C10: the conflict report holds exactly the copied files whose name was
resolved with a numeric suffix (conflict level ≥ 1); files copied under their
bare name never enter the report, and every reported resolved name differs
from the original name. -/
theorem C10_conflict_report (files : List (Str × Str)) (dest : List Str) :
    (copy_files_with_conflict_resolution files dest).2 =
      (copySteps files dest).filterMap
        (fun t => if 0 < t.conflict_level then
          some (t.src, ⟨t.original_name, t.new_name, t.conflict_level⟩) else none) ∧
    (∀ t ∈ copySteps files dest, (t.conflict_level = 0 ↔ t.new_name = t.original_name)) ∧
    (∀ e ∈ (copy_files_with_conflict_resolution files dest).2,
      1 ≤ e.2.conflict_level ∧ e.2.new_name ≠ e.2.original_name) := by
  refine ⟨copy_report_eq_filter files dest, copySteps_level_zero_iff files dest, ?_⟩
  intro e he
  rw [copy_report_eq_filter files dest] at he
  rcases List.mem_filterMap.mp he with ⟨t, ht, hsome⟩
  by_cases hl : 0 < t.conflict_level
  · rw [if_pos hl] at hsome
    cases hsome
    have hiff := copySteps_level_zero_iff files dest t ht
    refine ⟨hl, ?_⟩
    intro hname
    have := hiff.mpr hname
    omega
  · rw [if_neg hl] at hsome
    cases hsome

theorem C10_conflict_report_witness :
    (copy_files_with_conflict_resolution [("a/x.jpg".data, "x.jpg".data)]
        ["x.jpg".data]).2 =
      (copySteps [("a/x.jpg".data, "x.jpg".data)] ["x.jpg".data]).filterMap
        (fun t => if 0 < t.conflict_level then
          some (t.src, ⟨t.original_name, t.new_name, t.conflict_level⟩) else none) ∧
    (∀ t ∈ copySteps [("a/x.jpg".data, "x.jpg".data)] ["x.jpg".data],
      (t.conflict_level = 0 ↔ t.new_name = t.original_name)) ∧
    (∀ e ∈ (copy_files_with_conflict_resolution [("a/x.jpg".data, "x.jpg".data)]
        ["x.jpg".data]).2,
      1 ≤ e.2.conflict_level ∧ e.2.new_name ≠ e.2.original_name) :=
  C10_conflict_report [("a/x.jpg".data, "x.jpg".data)] ["x.jpg".data]

/-! ### media_utils.py: get_exif_datetime, format_shooting_time;
organize_photos.py: create_target_filename. -/

/-- Python `value.split('.')`. -/
def splitOnDot : Str → List Str
  | [] => [[]]
  | c :: rest =>
    if c = '.' then [] :: splitOnDot rest
    else
      match splitOnDot rest with
      | [] => [[c]]
      | g :: gs => (c :: g) :: gs

/-- The first component of a split (`split` never returns an empty list). -/
def headOr : List Str → Str
  | [] => []
  | x :: _ => x

/-- `media_utils.get_exif_datetime`, applied to the `DateTimeOriginal` tag
value when the image has one: `value.split('.')[0][:19]`. -/
def get_exif_datetime (exifDTO : Option Str) : Option Str :=
  match exifDTO with
  | some v => some ((headOr (splitOnDot v)).take 19)
  | none => none

/-- `media_utils.format_shooting_time`: empty/absent input gives None; a
parse failure gives None; otherwise strftime('%Y%m%d_%H%M%S'). -/
def format_shooting_time (dtStr : Option Str) : Option Str :=
  match dtStr with
  | none => none
  | some v => if v = [] then none else (parseDateTime v).map formatYmdHms

/-- `organize_photos.create_target_filename`: parse the shooting time, build
`IMG_%Y%m%d_%H%M%S`, then resolve conflicts against the existing names. -/
def create_target_filename (dtStr : Str) (ext : Str) (existing : List Str) :
    Option Str :=
  match parseDateTime dtStr with
  | none => none
  | some t => some (resolveName existing ("IMG_".data ++ formatYmdHms t) ext)

theorem resolveName_nil (base ext : Str) : resolveName [] base ext = base ++ ext := by
  have h0 : resolveLevel [] base ext = 0 :=
    (resolveLevel_eq_zero_iff [] base ext).mpr (by simp)
  rw [resolveName, h0]
  rfl

theorem splitOnDot_ne_nil (v : Str) : splitOnDot v ≠ [] := by
  cases v with
  | nil => simp [splitOnDot]
  | cons c rest =>
    by_cases hc : c = '.'
    · simp [splitOnDot, hc]
    · simp only [splitOnDot, hc, ite_false]
      cases splitOnDot rest <;> simp

theorem splitOnDot_head (v : Str) :
    headOr (splitOnDot v) = v.takeWhile (fun c => c != '.') := by
  induction v with
  | nil => rfl
  | cons c rest ih =>
    by_cases hc : c = '.'
    · subst hc
      simp [splitOnDot, headOr, List.takeWhile_cons]
    · rw [List.takeWhile_cons]
      cases h : splitOnDot rest with
      | nil => exact absurd h (splitOnDot_ne_nil rest)
      | cons g gs =>
        rw [h] at ih
        simp only [splitOnDot, hc, ite_false, h, headOr] at ih ⊢
        simp [show (c != '.') = true by simpa using hc, ih]

/-- C4: the extracted timestamp is the tag value with everything from the
first decimal point on removed, truncated to 19 characters; the malformed
value `2023:05:15 14:30:00aa` still yields `2023:05:15 14:30:00`. -/
theorem C4_exif_truncation :
    (∀ v, get_exif_datetime (some v) =
      some ((v.takeWhile (fun c => c != '.')).take 19)) ∧
    get_exif_datetime (some "2023:05:15 14:30:00aa".data) =
      some "2023:05:15 14:30:00".data := by
  constructor
  · intro v
    rw [get_exif_datetime, splitOnDot_head]
  · decide

/-- C5: capture-time resolution round-trips with the naming convention: the
well-formed EXIF value `2023:05:15 14:30:00` survives extraction unchanged,
formats to `20230515_143000`, and prepending the `IMG_` prefix yields the
base name `IMG_20230515_143000` (and, with no existing files, the target
filename `IMG_20230515_143000.jpg`). -/
theorem C5_capture_time_roundtrip :
    get_exif_datetime (some "2023:05:15 14:30:00".data) =
      some "2023:05:15 14:30:00".data ∧
    format_shooting_time (some "2023:05:15 14:30:00".data) =
      some "20230515_143000".data ∧
    "IMG_".data ++ "20230515_143000".data = "IMG_20230515_143000".data ∧
    create_target_filename "2023:05:15 14:30:00".data ".jpg".data [] =
      some "IMG_20230515_143000.jpg".data := by
  refine ⟨by decide, by decide, by decide, ?_⟩
  have hparse : parseDateTime "2023:05:15 14:30:00".data =
      some ⟨2023, 5, 15, 14, 30, 0⟩ := by decide
  simp only [create_target_filename, hparse, resolveName_nil]
  decide

/-! ### media_utils.py: rename_no_camera_files.  The five filename rules are
re.match patterns (anchored at the start); a file matching none of them is
renamed from its filesystem modification time with a trailing `_NO`. -/

/-- str.lower, character by character (extensions here are ASCII). -/
def lowerStr (s : Str) : Str := s.map Char.toLower

def IMAGE_EXTENSIONS : List Str :=
  [".jpg".data, ".jpeg".data, ".png".data, ".gif".data, ".bmp".data,
    ".tiff".data, ".webp".data]

/-- Match a literal piece of a regular expression, returning the rest. -/
def dropTok (tok : Str) : Str → Option Str :=
  fun l =>
    match tok, l with
    | [], l => some l
    | _ :: _, [] => none
    | t :: ts, c :: cs => if c = t then dropTok ts cs else none

/-- Match exactly n digits (`\d{n}`), returning them and the rest. -/
def grabDigits : Nat → Str → Option (Str × Str)
  | 0, l => some ([], l)
  | _ + 1, [] => none
  | n + 1, c :: cs =>
    if c.isDigit then (grabDigits n cs).map (fun p => (c :: p.1, p.2)) else none

/-- Rule 1 pattern `^IMG_\d{8}_\d{6}` (prefix match). -/
def matchRule1 (b : Str) : Bool :=
  (do
    let r ← dropTok "IMG_".data b
    let (_, r) ← grabDigits 8 r
    let r ← dropTok "_".data r
    let (_, _) ← grabDigits 6 r
    pure ()).isSome

/-- Rule 2 pattern `^(\d{8})_IMG_(\d{4}).*$`. -/
def matchRule2 (b : Str) : Option (Str × Str) := do
  let (d, r) ← grabDigits 8 b
  let r ← dropTok "_IMG_".data r
  let (t, _) ← grabDigits 4 r
  pure (d, t)

/-- Rule 3 pattern `^MTXX_(\d{8})(\d{6})$`. -/
def matchRule3 (b : Str) : Option (Str × Str) := do
  let r ← dropTok "MTXX_".data b
  let (d, r) ← grabDigits 8 r
  let (t, r) ← grabDigits 6 r
  if r = [] then pure (d, t) else none

/-- Rule 4 pattern `^beauty_(\d{8})(\d{6}).*$`. -/
def matchRule4 (b : Str) : Option (Str × Str) := do
  let r ← dropTok "beauty_".data b
  let (d, r) ← grabDigits 8 r
  let (t, _) ← grabDigits 6 r
  pure (d, t)

/-- Rule 5 pattern `^pt(\d{4})_(\d{2})_(\d{2})_(\d{2})_(\d{2})_(\d{2})$`. -/
def matchRule5 (b : Str) : Option (Str × Str) := do
  let r ← dropTok "pt".data b
  let (y, r) ← grabDigits 4 r
  let r ← dropTok "_".data r
  let (mo, r) ← grabDigits 2 r
  let r ← dropTok "_".data r
  let (d, r) ← grabDigits 2 r
  let r ← dropTok "_".data r
  let (h, r) ← grabDigits 2 r
  let r ← dropTok "_".data r
  let (mi, r) ← grabDigits 2 r
  let r ← dropTok "_".data r
  let (s, r) ← grabDigits 2 r
  if r = [] then pure (y ++ mo ++ d, h ++ mi ++ s) else none

inductive RenameDecision where
  | notImage
  | skip
  | rename (newBase : Str)
  | fallback (newBase : Str)
deriving DecidableEq

/-- The per-file decision of `media_utils.rename_no_camera_files`: non-image
extensions are left alone, rule 1 skips, rules 2–5 rebuild the base name from
the captured fields, and everything else falls back to the file modification
time with the lower-confidence `_NO` suffix. -/
def rename_no_camera_decision (filename : Str) (mtime : DateTime) : RenameDecision :=
  let se := splitext filename
  let base := se.1
  let ext := lowerStr se.2
  if ext ∉ IMAGE_EXTENSIONS then RenameDecision.notImage
  else if matchRule1 base then RenameDecision.skip
  else
    match matchRule2 base with
    | some (d, t) => RenameDecision.rename ("IMG_".data ++ d ++ '_' :: (t ++ "00".data))
    | none =>
      match matchRule3 base with
      | some (d, t) => RenameDecision.rename ("IMG_".data ++ d ++ '_' :: t)
      | none =>
        match matchRule4 base with
        | some (d, t) => RenameDecision.rename ("IMG_".data ++ d ++ '_' :: t)
        | none =>
          match matchRule5 base with
          | some (d, t) => RenameDecision.rename ("IMG_".data ++ d ++ '_' :: t)
          | none =>
            RenameDecision.fallback
              ("IMG_".data ++ formatYmd mtime ++ '_' :: (formatHms mtime ++ "_NO".data))

/-- C6: an image file matching none of the recognised filename patterns is
renamed from the filesystem modification time, and the new base name is
`IMG_` + eight date digits + `_` + six time digits + the `_NO` marker. -/
theorem C6_no_pattern_mtime_fallback (filename : Str) (mtime : DateTime)
    (himg : lowerStr (splitext filename).2 ∈ IMAGE_EXTENSIONS)
    (h1 : matchRule1 (splitext filename).1 = false)
    (h2 : matchRule2 (splitext filename).1 = none)
    (h3 : matchRule3 (splitext filename).1 = none)
    (h4 : matchRule4 (splitext filename).1 = none)
    (h5 : matchRule5 (splitext filename).1 = none)
    (hy : mtime.year < 10000) (hmo : mtime.month < 100) (hd : mtime.day < 100)
    (hh : mtime.hour < 100) (hmi : mtime.minute < 100) (hs : mtime.second < 100) :
    rename_no_camera_decision filename mtime =
      RenameDecision.fallback
        ("IMG_".data ++ formatYmd mtime ++ '_' :: (formatHms mtime ++ "_NO".data)) ∧
    (formatYmd mtime).length = 8 ∧ (∀ c ∈ formatYmd mtime, c.isDigit = true) ∧
    (formatHms mtime).length = 6 ∧ (∀ c ∈ formatHms mtime, c.isDigit = true) := by
  have hpy : (padNum 4 mtime.year).length = 4 :=
    padNum_length (by simpa using hy) (by norm_num)
  have hpmo : (padNum 2 mtime.month).length = 2 :=
    padNum_length (by simpa using hmo) (by norm_num)
  have hpd : (padNum 2 mtime.day).length = 2 :=
    padNum_length (by simpa using hd) (by norm_num)
  have hph : (padNum 2 mtime.hour).length = 2 :=
    padNum_length (by simpa using hh) (by norm_num)
  have hpmi : (padNum 2 mtime.minute).length = 2 :=
    padNum_length (by simpa using hmi) (by norm_num)
  have hps : (padNum 2 mtime.second).length = 2 :=
    padNum_length (by simpa using hs) (by norm_num)
  refine ⟨?_, ?_, ?_, ?_, ?_⟩
  · rw [rename_no_camera_decision]
    simp only [himg, not_true, ite_false, h1, h2, h3, h4, h5]
    rfl
  · simp [formatYmd, hpy, hpmo, hpd]
  · intro c hc
    rcases List.mem_append.mp hc with hc | hc
    · rcases List.mem_append.mp hc with hc | hc
      · exact padNum_digits _ _ c hc
      · exact padNum_digits _ _ c hc
    · exact padNum_digits _ _ c hc
  · simp [formatHms, hph, hpmi, hps]
  · intro c hc
    rcases List.mem_append.mp hc with hc | hc
    · rcases List.mem_append.mp hc with hc | hc
      · exact padNum_digits _ _ c hc
      · exact padNum_digits _ _ c hc
    · exact padNum_digits _ _ c hc

theorem C6_no_pattern_mtime_fallback_witness :
    rename_no_camera_decision "photo.jpg".data ⟨2020, 1, 2, 3, 4, 5⟩ =
      RenameDecision.fallback
        ("IMG_".data ++ formatYmd ⟨2020, 1, 2, 3, 4, 5⟩ ++
          '_' :: (formatHms ⟨2020, 1, 2, 3, 4, 5⟩ ++ "_NO".data)) ∧
    (formatYmd ⟨2020, 1, 2, 3, 4, 5⟩).length = 8 ∧
    (∀ c ∈ formatYmd ⟨2020, 1, 2, 3, 4, 5⟩, c.isDigit = true) ∧
    (formatHms ⟨2020, 1, 2, 3, 4, 5⟩).length = 6 ∧
    (∀ c ∈ formatHms ⟨2020, 1, 2, 3, 4, 5⟩, c.isDigit = true) :=
  C6_no_pattern_mtime_fallback "photo.jpg".data ⟨2020, 1, 2, 3, 4, 5⟩
    (by decide) (by decide) (by decide) (by decide) (by decide) (by decide)
    (by decide) (by decide) (by decide) (by decide) (by decide) (by decide)

/-! ### Content hashing: file_unique.py versus duplicate_utils.py.  A file is
modelled by its status: missing, unreadable (no read permission), failing
mid-read, or readable with a content digest. -/

inductive FileStat where
  | missing
  | unreadable
  | readFail
  | content (digest : Str)
deriving DecidableEq

def isContent : FileStat → Bool
  | FileStat.content _ => true
  | _ => false

/-- `file_unique.calculate_md5`: every `IOError`/`PermissionError` raised by
`open`/`read` is caught and turned into None. -/
def calculate_md5_fu (st : FileStat) : Option Str :=
  match st with
  | FileStat.content d => some d
  | _ => none

inductive PyErr where
  | fileNotFound
  | permissionDenied
deriving DecidableEq

/-- `duplicate_utils.calculate_md5`: a missing or unreadable file raises
before the try-block; only exceptions inside the read loop yield None. -/
def calculate_md5_du (st : FileStat) : Except PyErr (Option Str) :=
  match st with
  | FileStat.missing => Except.error PyErr.fileNotFound
  | FileStat.unreadable => Except.error PyErr.permissionDenied
  | FileStat.readFail => Except.ok none
  | FileStat.content d => Except.ok (some d)

/-- `defaultdict(list)` / `dict.setdefault` append of a path under a digest,
preserving insertion order. -/
def addToGroup : List (Str × List Str) → Str → Str → List (Str × List Str)
  | [], md5, p => [(md5, [p])]
  | g :: gs, md5, p =>
    if g.1 = md5 then (g.1, g.2 ++ [p]) :: gs else g :: addToGroup gs md5 p

/-- One file of `file_unique.find_duplicate_files`: skip non-files, hash, and
group the path when a digest was produced. -/
def md5Step (groups : List (Str × List Str)) (f : Str × FileStat) :
    List (Str × List Str) :=
  if f.2 = FileStat.missing then groups
  else
    match calculate_md5_fu f.2 with
    | some md5 => addToGroup groups md5 f.1
    | none => groups

/-- `file_unique.find_duplicate_files` over a directory listing, keeping the
groups with at least two members. -/
def find_duplicate_files_fu (listing : List (Str × FileStat)) :
    List (Str × List Str) :=
  (listing.foldl md5Step []).filter (fun g => 1 < g.2.length)

/-- `duplicate_utils.find_duplicate_files`: `process_file` skips non-files,
but `calculate_md5` raises on an unreadable file and the exception propagates
out of the whole walk. -/
def find_duplicate_files_du (listing : List (Str × FileStat)) :
    Except PyErr (List (Str × List Str)) := do
  let groups ← listing.foldlM
    (fun groups f =>
      if f.2 = FileStat.missing then pure groups
      else do
        let md5? ← calculate_md5_du f.2
        match md5? with
        | some md5 => pure (addToGroup groups md5 f.1)
        | none => pure groups)
    []
  pure (groups.filter (fun g => 1 < g.2.length))

theorem addToGroup_members (groups : List (Str × List Str)) (md5 p : Str) :
    ∀ g ∈ addToGroup groups md5 p, ∀ q ∈ g.2,
      (∃ g₀ ∈ groups, q ∈ g₀.2) ∨ q = p := by
  induction groups with
  | nil =>
    intro g hg q hq
    simp [addToGroup] at hg
    subst hg
    simp at hq
    exact Or.inr hq
  | cons g₀ gs ih =>
    intro g hg q hq
    rw [addToGroup] at hg
    by_cases h : g₀.1 = md5
    · rw [if_pos h] at hg
      rcases List.mem_cons.mp hg with hg | hg
      · subst hg
        simp at hq
        rcases hq with hq | hq
        · exact Or.inl ⟨g₀, by simp, hq⟩
        · exact Or.inr hq
      · exact Or.inl ⟨g, by simp [hg], hq⟩
    · rw [if_neg h] at hg
      rcases List.mem_cons.mp hg with hg | hg
      · subst hg
        exact Or.inl ⟨g, by simp, hq⟩
      · rcases ih g hg q hq with ⟨g₁, hg₁, hq₁⟩ | hqp
        · exact Or.inl ⟨g₁, by simp [hg₁], hq₁⟩
        · exact Or.inr hqp

theorem fold_members (listing : List (Str × FileStat)) :
    ∀ groups₀, ∀ g ∈ listing.foldl md5Step groups₀, ∀ q ∈ g.2,
      (∃ g₀ ∈ groups₀, q ∈ g₀.2) ∨ ∃ d, (q, FileStat.content d) ∈ listing := by
  induction listing with
  | nil => intro groups₀ g hg q hq; exact Or.inl ⟨g, hg, hq⟩
  | cons f rest ih =>
    intro groups₀ g hg q hq
    rw [List.foldl_cons] at hg
    rcases ih (md5Step groups₀ f) g hg q hq with ⟨g₀, hg₀, hq₀⟩ | ⟨d, hd⟩
    · rw [md5Step] at hg₀
      by_cases hm : f.2 = FileStat.missing
      · rw [if_pos hm] at hg₀
        exact Or.inl ⟨g₀, hg₀, hq₀⟩
      · rw [if_neg hm] at hg₀
        cases hst : calculate_md5_fu f.2 with
        | none =>
          rw [hst] at hg₀
          exact Or.inl ⟨g₀, hg₀, hq₀⟩
        | some md5 =>
          rw [hst] at hg₀
          rcases addToGroup_members groups₀ md5 f.1 g₀ hg₀ q hq₀ with ⟨g₁, hg₁, hq₁⟩ | hqp
          · exact Or.inl ⟨g₁, hg₁, hq₁⟩
          · cases hf2 : f.2 with
            | content d =>
              refine Or.inr ⟨d, ?_⟩
              rw [hqp, ← hf2]
              simp
            | missing => exact absurd hf2 hm
            | unreadable => rw [hf2] at hst; simp [calculate_md5_fu] at hst
            | readFail => rw [hf2] at hst; simp [calculate_md5_fu] at hst
    · exact Or.inr ⟨d, by simp [hd]⟩

theorem fold_skip_noncontent (listing : List (Str × FileStat)) :
    ∀ groups₀, listing.foldl md5Step groups₀ =
      (listing.filter (fun f => isContent f.2)).foldl md5Step groups₀ := by
  induction listing with
  | nil => intro groups₀; rfl
  | cons f rest ih =>
    intro groups₀
    rw [List.foldl_cons]
    cases hf : f.2 with
    | content d =>
      have hfil : List.filter (fun f => isContent f.2) (f :: rest) =
          f :: List.filter (fun f => isContent f.2) rest := by
        simp [List.filter_cons, hf, isContent]
      rw [hfil, List.foldl_cons]
      exact ih (md5Step groups₀ f)
    | missing =>
      have hstep : md5Step groups₀ f = groups₀ := by rw [md5Step, if_pos hf]
      have hfil : List.filter (fun f => isContent f.2) (f :: rest) =
          List.filter (fun f => isContent f.2) rest := by
        simp [List.filter_cons, hf, isContent]
      rw [hstep, hfil]
      exact ih groups₀
    | unreadable =>
      have hstep : md5Step groups₀ f = groups₀ := by
        rw [md5Step, if_neg (by simp [hf]), hf]
        rfl
      have hfil : List.filter (fun f => isContent f.2) (f :: rest) =
          List.filter (fun f => isContent f.2) rest := by
        simp [List.filter_cons, hf, isContent]
      rw [hstep, hfil]
      exact ih groups₀
    | readFail =>
      have hstep : md5Step groups₀ f = groups₀ := by
        rw [md5Step, if_neg (by simp [hf]), hf]
        rfl
      have hfil : List.filter (fun f => isContent f.2) (f :: rest) =
          List.filter (fun f => isContent f.2) rest := by
        simp [List.filter_cons, hf, isContent]
      rw [hstep, hfil]
      exact ih groups₀

theorem nodup_keys_eq {l : List (Str × FileStat)} (h : (l.map Prod.fst).Nodup)
    {p : Str} {s₁ s₂ : FileStat} (h₁ : (p, s₁) ∈ l) (h₂ : (p, s₂) ∈ l) :
    s₁ = s₂ := by
  induction l with
  | nil => simp at h₁
  | cons a tl ih =>
    rw [List.map_cons, List.nodup_cons] at h
    rcases List.mem_cons.mp h₁ with he₁ | he₁ <;>
      rcases List.mem_cons.mp h₂ with he₂ | he₂
    · rw [← he₂] at he₁
      exact congrArg Prod.snd he₁
    · exfalso
      refine h.1 ?_
      rw [← he₁]
      show p ∈ List.map Prod.fst tl
      exact List.mem_map_of_mem Prod.fst he₂
    · exfalso
      refine h.1 ?_
      rw [← he₂]
      show p ∈ List.map Prod.fst tl
      exact List.mem_map_of_mem Prod.fst he₁
    · exact ih h.2 he₁ he₂

/-- C7 counterexample: in duplicate_utils, one unreadable file makes the
whole index build raise `PermissionError`, even though two other files are
perfectly hashable — the per-file failure aborts the entire run instead of
skipping the file. -/
theorem C7_per_file_abort_counterexample :
    find_duplicate_files_du
      [("a.jpg".data, FileStat.unreadable),
       ("b.jpg".data, FileStat.content "5d41402a".data),
       ("c.jpg".data, FileStat.content "5d41402a".data)] =
      Except.error PyErr.permissionDenied := rfl

/-- C7 (amended): in file_unique, a file whose hash cannot be computed is
excluded from every fingerprint group and the index equals the one built from
the successfully hashed files alone — the failure never aborts the run.  (In
duplicate_utils an unreadable file instead raises and aborts the walk.) -/
theorem C7_hash_failure_skipped (listing : List (Str × FileStat))
    (hnd : (listing.map Prod.fst).Nodup) :
    (∀ p st, (p, st) ∈ listing → isContent st = false →
      ∀ g ∈ find_duplicate_files_fu listing, p ∉ g.2) ∧
    find_duplicate_files_fu listing =
      find_duplicate_files_fu (listing.filter (fun f => isContent f.2)) := by
  constructor
  · intro p st hmem hfail g hg hpg
    rw [find_duplicate_files_fu] at hg
    have hg' := List.mem_of_mem_filter hg
    rcases fold_members listing [] g hg' p hpg with ⟨g₀, hg₀, _⟩ | ⟨d, hd⟩
    · simp at hg₀
    · have : st = FileStat.content d := nodup_keys_eq hnd hmem hd
      rw [this] at hfail
      simp [isContent] at hfail
  · rw [find_duplicate_files_fu, find_duplicate_files_fu, fold_skip_noncontent]

theorem C7_hash_failure_skipped_witness :
    (∀ p st, (p, st) ∈
        [("a.jpg".data, FileStat.unreadable),
         ("b.jpg".data, FileStat.content "5d41402a".data)] →
      isContent st = false →
      ∀ g ∈ find_duplicate_files_fu
        [("a.jpg".data, FileStat.unreadable),
         ("b.jpg".data, FileStat.content "5d41402a".data)], p ∉ g.2) ∧
    find_duplicate_files_fu
        [("a.jpg".data, FileStat.unreadable),
         ("b.jpg".data, FileStat.content "5d41402a".data)] =
      find_duplicate_files_fu
        ([("a.jpg".data, FileStat.unreadable),
          ("b.jpg".data, FileStat.content "5d41402a".data)].filter
          (fun f => isContent f.2)) :=
  C7_hash_failure_skipped
    [("a.jpg".data, FileStat.unreadable),
     ("b.jpg".data, FileStat.content "5d41402a".data)] (by decide)

/-! ### classify_files.py: extension classification and routing. -/

def VIDEO_EXTENSIONS_CF : List Str :=
  [".mp4".data, ".mov".data, ".avi".data, ".mkv".data, ".flv".data,
    ".wmv".data, ".mpeg".data]

inductive MediaKind where
  | image
  | video
  | other
deriving DecidableEq

/-- The extension test of `classify_files`: lowercase, then look the result
up in the fixed image and video tables. -/
def classifyExt (ext : Str) : MediaKind :=
  if lowerStr ext ∈ IMAGE_EXTENSIONS then MediaKind.image
  else if lowerStr ext ∈ VIDEO_EXTENSIONS_CF then MediaKind.video
  else MediaKind.other

def isKind (k : MediaKind) (name : Str) : Bool :=
  decide (classifyExt (splitext name).2 = k)

/-- `classify_files`: every image goes to the image bucket, every video to
the video bucket, everything else stays in the root directory.  Returns
(root-remaining, image bucket, video bucket). -/
def classify_files (listing : List Str) : List Str × List Str × List Str :=
  listing.foldl
    (fun acc name =>
      match classifyExt (splitext name).2 with
      | MediaKind.image => (acc.1, acc.2.1 ++ [name], acc.2.2)
      | MediaKind.video => (acc.1, acc.2.1, acc.2.2 ++ [name])
      | MediaKind.other => (acc.1 ++ [name], acc.2.1, acc.2.2))
    ([], [], [])

theorem toNat_ofNat_valid {n : Nat} (h : n.isValidChar) : (Char.ofNat n).toNat = n := by
  rw [Char.ofNat, dif_pos h]
  rfl

theorem toLower_idem (c : Char) : c.toLower.toLower = c.toLower := by
  unfold Char.toLower
  by_cases h : c.toNat ≥ 65 ∧ c.toNat ≤ 90
  · rw [if_pos h]
    have hv : (c.toNat + 32).isValidChar := Or.inl (by omega)
    have ht : (Char.ofNat (c.toNat + 32)).toNat = c.toNat + 32 := toNat_ofNat_valid hv
    rw [if_neg (by omega)]
  · rw [if_neg h, if_neg h]

theorem lowerStr_idem (s : Str) : lowerStr (lowerStr s) = lowerStr s := by
  rw [lowerStr, lowerStr, List.map_map]
  exact List.map_congr_left (fun c _ => toLower_idem c)

theorem classify_fold_spec (listing : List Str) :
    ∀ acc : List Str × List Str × List Str,
      listing.foldl
        (fun acc name =>
          match classifyExt (splitext name).2 with
          | MediaKind.image => (acc.1, acc.2.1 ++ [name], acc.2.2)
          | MediaKind.video => (acc.1, acc.2.1, acc.2.2 ++ [name])
          | MediaKind.other => (acc.1 ++ [name], acc.2.1, acc.2.2))
        acc =
      (acc.1 ++ listing.filter (isKind MediaKind.other),
        acc.2.1 ++ listing.filter (isKind MediaKind.image),
        acc.2.2 ++ listing.filter (isKind MediaKind.video)) := by
  induction listing with
  | nil => intro acc; simp
  | cons name rest ih =>
    intro acc
    rw [List.foldl_cons]
    cases hk : classifyExt (splitext name).2 with
    | image =>
      simp only [hk]
      rw [ih]
      simp [List.filter_cons, isKind, hk]
    | video =>
      simp only [hk]
      rw [ih]
      simp [List.filter_cons, isKind, hk]
    | other =>
      simp only [hk]
      rw [ih]
      simp [List.filter_cons, isKind, hk]

/-- C8: classification is case-insensitive (it factors through lowercasing
the extension), and a file whose lowercased extension is in neither table is
classified `other` and left in the root directory — it enters neither the
image nor the video bucket and is never dropped. -/
theorem C8_unknown_extension_kept (listing : List Str) :
    (∀ ext, classifyExt ext = classifyExt (lowerStr ext)) ∧
    (∀ name ∈ listing,
      lowerStr (splitext name).2 ∉ IMAGE_EXTENSIONS →
      lowerStr (splitext name).2 ∉ VIDEO_EXTENSIONS_CF →
      classifyExt (splitext name).2 = MediaKind.other ∧
      name ∈ (classify_files listing).1 ∧
      name ∉ (classify_files listing).2.1 ∧
      name ∉ (classify_files listing).2.2) ∧
    (∀ name ∈ listing,
      name ∈ (classify_files listing).1 ∨ name ∈ (classify_files listing).2.1 ∨
        name ∈ (classify_files listing).2.2) := by
  have hspec := classify_fold_spec listing ([], [], [])
  refine ⟨?_, ?_, ?_⟩
  · intro ext
    rw [classifyExt, classifyExt, lowerStr_idem]
  · intro name hname himg hvid
    have hother : classifyExt (splitext name).2 = MediaKind.other := by
      rw [classifyExt, if_neg himg, if_neg hvid]
    refine ⟨hother, ?_, ?_, ?_⟩
    · rw [classify_files, hspec]
      simp [List.mem_filter, hname, isKind, hother]
    · rw [classify_files, hspec]
      simp [List.mem_filter, isKind, hother]
    · rw [classify_files, hspec]
      simp [List.mem_filter, isKind, hother]
  · intro name hname
    rw [classify_files, hspec]
    cases hk : classifyExt (splitext name).2 with
    | image => exact Or.inr (Or.inl (by simp [List.mem_filter, hname, isKind, hk]))
    | video => exact Or.inr (Or.inr (by simp [List.mem_filter, hname, isKind, hk]))
    | other => exact Or.inl (by simp [List.mem_filter, hname, isKind, hk])

theorem C8_unknown_extension_kept_witness :
    (∀ ext, classifyExt ext = classifyExt (lowerStr ext)) ∧
    (∀ name ∈ ["doc.pdf".data, "pic.JPG".data],
      lowerStr (splitext name).2 ∉ IMAGE_EXTENSIONS →
      lowerStr (splitext name).2 ∉ VIDEO_EXTENSIONS_CF →
      classifyExt (splitext name).2 = MediaKind.other ∧
      name ∈ (classify_files ["doc.pdf".data, "pic.JPG".data]).1 ∧
      name ∉ (classify_files ["doc.pdf".data, "pic.JPG".data]).2.1 ∧
      name ∉ (classify_files ["doc.pdf".data, "pic.JPG".data]).2.2) ∧
    (∀ name ∈ ["doc.pdf".data, "pic.JPG".data],
      name ∈ (classify_files ["doc.pdf".data, "pic.JPG".data]).1 ∨
        name ∈ (classify_files ["doc.pdf".data, "pic.JPG".data]).2.1 ∨
        name ∈ (classify_files ["doc.pdf".data, "pic.JPG".data]).2.2) :=
  C8_unknown_extension_kept ["doc.pdf".data, "pic.JPG".data]

/-! ### utils.py get_creation_time and file_organizer.py
process_media_folder. -/

/-- A readable file as the resolver sees it: the raw EXIF DateTimeOriginal
tag, if any, and the filesystem modification time. -/
structure FileMeta where
  exifDTO : Option Str
  mtime : DateTime

/-- `utils.get_creation_time`: parse the EXIF tag with
`%Y:%m:%d %H:%M:%S` inside a bare try/except; on any failure fall back to the
modification time.  Always returns a datetime. -/
def get_creation_time (f : FileMeta) : DateTime :=
  match f.exifDTO with
  | some v => (parseDateTime v).getD f.mtime
  | none => f.mtime

/-- Python truthiness of a `datetime` instance: always true (the class
defines neither `__bool__` nor `__len__`). -/
def datetimeTruthy (_ : DateTime) : Bool := true

/-- The routing phase of `FileOrganizer.process_media_folder`: a file whose
creation time is truthy goes to `camera/`, otherwise to `no_camera/`. -/
def process_media_folder (files : List (Str × FileMeta)) : List Str × List Str :=
  files.foldl
    (fun acc f =>
      if datetimeTruthy (get_creation_time f.2) then (acc.1 ++ [f.1], acc.2)
      else (acc.1, acc.2 ++ [f.1]))
    ([], [])

theorem process_media_folder_spec (files : List (Str × FileMeta)) :
    ∀ acc : List Str × List Str,
      files.foldl
        (fun acc f =>
          if datetimeTruthy (get_creation_time f.2) then (acc.1 ++ [f.1], acc.2)
          else (acc.1, acc.2 ++ [f.1]))
        acc = (acc.1 ++ files.map Prod.fst, acc.2) := by
  induction files with
  | nil => intro acc; simp
  | cons f rest ih =>
    intro acc
    rw [List.foldl_cons]
    have hstep : (if datetimeTruthy (get_creation_time f.2) = true
        then (acc.1 ++ [f.1], acc.2) else (acc.1, acc.2 ++ [f.1])) =
        (acc.1 ++ [f.1], acc.2) := by
      simp [datetimeTruthy]
    rw [hstep, ih]
    simp

/-- C9: `get_creation_time` is total and never yields a missing value — with
no EXIF tag, or an unparseable one, it returns the modification time — and
since a datetime is always truthy, `process_media_folder` routes every file
into the camera directory and the `no_camera` branch is unreachable. -/
theorem C9_no_camera_branch_unreachable :
    (∀ f : FileMeta, f.exifDTO = none → get_creation_time f = f.mtime) ∧
    (∀ (f : FileMeta) (v : Str), f.exifDTO = some v → parseDateTime v = none →
      get_creation_time f = f.mtime) ∧
    (∀ files : List (Str × FileMeta),
      process_media_folder files = (files.map Prod.fst, [])) := by
  refine ⟨?_, ?_, ?_⟩
  · intro f hf
    rw [get_creation_time, hf]
  · intro f v hf hp
    rw [get_creation_time, hf]
    show (parseDateTime v).getD f.mtime = f.mtime
    rw [hp]
    rfl
  · intro files
    rw [process_media_folder, process_media_folder_spec files ([], [])]
    simp

theorem C9_no_camera_branch_unreachable_witness :
    get_creation_time ⟨none, ⟨2021, 6, 7, 8, 9, 10⟩⟩ = ⟨2021, 6, 7, 8, 9, 10⟩ ∧
    get_creation_time ⟨some "not a date".data, ⟨2021, 6, 7, 8, 9, 10⟩⟩ =
      ⟨2021, 6, 7, 8, 9, 10⟩ ∧
    process_media_folder
        [("a.jpg".data, ⟨none, ⟨2021, 6, 7, 8, 9, 10⟩⟩)] = (["a.jpg".data], []) :=
  ⟨C9_no_camera_branch_unreachable.1 _ rfl,
    C9_no_camera_branch_unreachable.2.1 _ "not a date".data rfl (by decide),
    C9_no_camera_branch_unreachable.2.2 _⟩
